import Mathlib

/-!
Shallow embedding of `tools/embark-oss/src/validate.rs`: a validation pipeline
that resolves the CODEOWNERS maintainers of Embark open source projects,
classifies each project as passing or failing, prints a status line per
project, and optionally notifies a Slack webhook when failures exist.

External collaborators (the GitHub content provider and the Slack webhook
sink) are modelled as an explicit environment of pure functions; `async`
fetches become `Except`-valued calls into that environment.  The concurrent
`futures::future::join_all` is modelled by an explicit completion order
(a permutation of the task indices) together with a merge-by-input-index
collection step, so that claims about output ordering versus completion
order can be stated.
-/

/-- Model of `eyre::Report`: either a leaf message (`eyre!(...)`) or a
context layered on a cause (`wrap_err`). -/
inductive Report where
  | msg (text : String)
  | context (text : String) (cause : Report)
deriving DecidableEq, Repr

/-- Model of `slack::Block` as used by `slack_notification_blocks`. -/
inductive Block where
  | Text (text : String)
  | Divider
deriving DecidableEq, Repr

/-- Split a character list into lines at newline characters. -/
def splitLinesAux (cs : List Char) (cur : List Char) : List (List Char) :=
  match cs with
  | [] => [cur.reverse]
  | c :: rest =>
    if c = '\n' then cur.reverse :: splitLinesAux rest []
    else splitLinesAux rest (c :: cur)

/-- The lines of a text, split at newline characters. -/
def splitLines (cs : List Char) : List (List Char) :=
  splitLinesAux cs []

/-- Split a character list at whitespace (fragments may be empty). -/
def splitWSAux (cs : List Char) (cur : List Char) : List (List Char) :=
  match cs with
  | [] => [cur.reverse]
  | c :: rest =>
    if c.isWhitespace then cur.reverse :: splitWSAux rest []
    else splitWSAux rest (c :: cur)

/-- The whitespace-separated tokens of a line (non-empty fragments only). -/
def tokensOf (cs : List Char) : List (List Char) :=
  (splitWSAux cs []).filter (fun t => ¬ t.isEmpty)

/-- Remove leading and trailing whitespace of a character list. -/
def trimChars (cs : List Char) : List Char :=
  ((cs.dropWhile Char.isWhitespace).reverse.dropWhile Char.isWhitespace).reverse

/-- A single rule of a CODEOWNERS document: a path pattern plus the owner
identifiers attached to it (deduplicated). -/
structure CodeOwnersRule where
  pattern : String
  owners : List String
deriving DecidableEq, Repr

/-- A parsed CODEOWNERS document: its ordered list of rules. -/
structure CodeOwners where
  rules : List CodeOwnersRule
deriving DecidableEq, Repr

/-- Modelled from the spec: parsing of one line of the ownership grammar
(the `crate::codeowners` module is not among the provided sources).  Blank
lines and comment lines (leading `#`) are ignored (`none`); any other line
must be `<pattern> <owner>+`; a pattern with zero owners is a parse error. -/
def parseLine (line : List Char) : Option (Except Report CodeOwnersRule) :=
  if (trimChars line).isEmpty then none
  else if (trimChars line).headD ' ' = '#' then none
  else
    match tokensOf (trimChars line) with
    | [] => some (.error (Report.msg ("Malformed CODEOWNERS line: " ++ String.mk line)))
    | [p] => some (.error (Report.msg ("Rule with no owners: " ++ String.mk p)))
    | p :: o :: os =>
      some (.ok { pattern := String.mk p, owners := ((o :: os).map String.mk).dedup })

/-- Fail-fast collection of per-line parse results: the first malformed
line aborts parsing with its error. -/
def collectRules : List (Except Report CodeOwnersRule) → Except Report (List CodeOwnersRule)
  | [] => .ok []
  | .error e :: _ => .error e
  | .ok r :: rest => (collectRules rest).map (fun rs => r :: rs)

/-- Modelled from the spec: `CodeOwners::new` (the `crate::codeowners`
module is not among the provided sources).  Parses the document text
line by line, failing fast on the first malformed line. -/
def CodeOwners.new (text : String) : Except Report CodeOwners :=
  (collectRules ((splitLines text.data).filterMap parseLine)).map
    (fun rs => { rules := rs })

/-- Modelled from the spec: `CodeOwners::primary_maintainers` (the
`crate::codeowners` module is not among the provided sources).  The owner
set of the last rule whose pattern is the wildcard `*`, or `none` when no
such rule exists. -/
def CodeOwners.primaryMaintainers (co : CodeOwners) : Option (List String) :=
  ((co.rules.filter (fun r => r.pattern = "*")).getLast?).map (fun r => r.owners)

/-- Modelled from the spec: `crate::error::cause_string` (the
`crate::error` module is not among the provided sources).  Renders a
failure cause chain nested cause by cause, optionally indented. -/
def causeStringAux (depth : Nat) (indent : Bool) : Report → String
  | .msg t => (if indent then String.mk (List.replicate (2 * depth) ' ') else "") ++ t
  | .context t cause =>
    (if indent then String.mk (List.replicate (2 * depth) ' ') else "") ++ t ++ "\n" ++
      causeStringAux (depth + 1) indent cause

/-- Modelled from the spec: entry point of the cause-chain rendering. -/
def causeString (error : Report) (indent : Bool) : String :=
  causeStringAux 0 indent error

/-- The environment of external collaborators consumed by `validate.rs`:
the GitHub content provider (`download_repo_file`, and the already-decoded
`data.json` project list of `download_repo_json_file`) and the Slack
webhook sink. -/
structure Env where
  downloadRepoFile : String → String → String → String → Except Report String
  downloadDataJson : Except Report (List String)
  sendWebhook : String → List Block → Except Report Unit

instance {ε α : Type} [DecidableEq ε] [DecidableEq α] : DecidableEq (Except ε α) := fun x y =>
  match x, y with
  | .ok a, .ok b =>
    if h : a = b then .isTrue (by rw [h])
    else .isFalse (by intro hc; cases hc; exact h rfl)
  | .ok _, .error _ => .isFalse (by intro hc; cases hc)
  | .error _, .ok _ => .isFalse (by intro hc; cases hc)
  | .error e, .error f =>
    if h : e = f then .isTrue (by rw [h])
    else .isFalse (by intro hc; cases hc; exact h rfl)

/-- The `Project` struct: a name and a maintainers outcome
(`eyre::Result<HashSet<String>>`, modelled as `Except` over a
deduplicated list). -/
structure Project where
  name : String
  maintainers : Except Report (List String)
deriving DecidableEq, Repr

/-- `not_yet_checked()`: the placeholder failure a fresh `Project` holds. -/
def notYetChecked {α : Type} : Except Report α :=
  .error (Report.msg "This property has not yet been validated")

/-- `Project::new`. -/
def Project.new (name : String) : Project :=
  { name := name, maintainers := notYetChecked }

/-- `Project::has_errors`. -/
def Project.hasErrors (p : Project) : Bool :=
  match p.maintainers with
  | .ok _ => false
  | .error _ => true

/-- `Project::errors`: the (zero or one) error of the maintainers outcome. -/
def Project.errors (p : Project) : List Report :=
  match p.maintainers with
  | .ok _ => []
  | .error e => [e]

/-- `Project::errors_to_string`. -/
def Project.errorsToString (p : Project) (indent : Bool) : Option String :=
  let errs := p.errors
  if errs.isEmpty then none
  else some (String.intercalate "\n" (errs.map (fun e => causeString e indent)))

/-- The per-branch CODEOWNERS fetch `get` closed over inside
`lookup_project_maintainers`. -/
def getBranch (env : Env) (name branch : String) : Except Report String :=
  env.downloadRepoFile "EmbarkStudios" name branch ".github/CODEOWNERS"

/-- `get("main").or_else(|_| get("master"))`: try `main` first; on failure
try `master`; if both fail the surviving error is the `master` one. -/
def fetchCodeowners (env : Env) (name : String) : Except Report String :=
  match getBranch env name "main" with
  | .ok text => .ok text
  | .error _ => getBranch env name "master"

/-- The parse-and-extract tail of `lookup_project_maintainers`: parse the
document (wrapping parse errors), then require a primary maintainer set. -/
def processCodeowners (text : String) : Except Report (List String) :=
  match CodeOwners.new text with
  | .error e => .error (Report.context "Unable to determine maintainers" e)
  | .ok co =>
    match co.primaryMaintainers with
    | some m => .ok m
    | none => .error (Report.msg "No maintainers were found for * the CODEOWNERS file")

/-- `lookup_project_maintainers`. -/
def lookupProjectMaintainers (env : Env) (name : String) : Except Report (List String) :=
  match fetchCodeowners env name with
  | .ok text => processCodeowners text
  | .error e => .error e

/-- `Project::validate`: replaces the maintainers outcome with the
resolution result, keeping the name. -/
def Project.validate (p : Project) (env : Env) : Project :=
  { name := p.name, maintainers := lookupProjectMaintainers env p.name }

/-- `print_status`, as the text it prints: `none` models reaching the
`unreachable!()` branch. -/
def printStatus (p : Project) : Option String :=
  match p.errorsToString true with
  | some errors => some ("❌ " ++ p.name ++ "\n" ++ errors ++ "\n")
  | none =>
    match p.maintainers with
    | .ok maintainers =>
      some ("✔️ " ++ p.name ++ " (" ++ String.intercalate ", " maintainers ++ ")\n")
    | .error _ => none

/-- Merge-by-input-index step of `futures::future::join_all`: slot `i` of the
output receives the result of the task that was launched at input index `i`,
looked up in the stream of completion events (pairs of task index and task
result, listed in completion order). -/
def collectByIndex (n : Nat) (completions : List (Nat × Project)) : List (Option Project) :=
  (List.range n).map (fun i => (completions.find? (fun c => c.fst == i)).map Prod.snd)

/-- The result of the resolution task launched for input index `j`. -/
def taskResult (env : Env) (names : List String) (j : Nat) : Project :=
  (Project.new (names.getD j "")).validate env

/-- `join_all` over one validation future per project, with an explicit
completion order: tasks complete in the order given by `order`, each
completion event carries the task index and its result, and the events are
merged back by input index. -/
def validateAll (env : Env) (names : List String) (order : List Nat) : List Project :=
  (collectByIndex names.length (order.map (fun j => (j, taskResult env names j)))).reduceOption

/-- The sequential reading of the same pipeline: validate each listed
project in input order. -/
def validateAllSeq (env : Env) (names : List String) : List Project :=
  names.map (fun n => (Project.new n).validate env)

/-- The fixed header text of the Slack notification. -/
def slackHead : String :=
  "The following Embark open source projects have been found to have maintainership issues."

/-- The fixed footer text of the Slack notification. -/
def slackFoot : String :=
  "This message was generated by the <https://github.com/EmbarkStudios/opensource/tree/main/tools/embark-oss|embark-oss tool> on GitHub Actions."

/-- `slack_project_block`: `none` when the project has no errors. -/
def slackProjectBlock (p : Project) : Option Block :=
  (p.errorsToString false).map (fun error =>
    Block.Text (":red_circle: *<https://github.com/EmbarkStudios/" ++ p.name ++ "|" ++
      p.name ++ ">*\n```" ++ error ++ "```"))

/-- The block a failing project contributes to the notification: its display
name (as a GitHub link) followed by its failure cause text. -/
def failingBlock (p : Project) : Block :=
  Block.Text (":red_circle: *<https://github.com/EmbarkStudios/" ++ p.name ++ "|" ++
    p.name ++ ">*\n```" ++ (p.errorsToString false).getD "" ++ "```")

/-- `slack_notification_blocks`. -/
def slackNotificationBlocks (projects : List Project) : List Block :=
  [Block.Text slackHead, Block.Divider] ++
    projects.filterMap slackProjectBlock ++
    [Block.Divider, Block.Text slackFoot]

/-- `all`, instrumented: besides the `eyre::Result<()>` it returns the trace
of Slack webhook invocations (url and blocks of each call made). -/
def allRun (env : Env) (slackWebhookUrl : Option String) (order : List Nat) :
    Except Report Unit × List (String × List Block) :=
  match env.downloadDataJson with
  | .error e =>
    (.error (Report.context "Unable to get list of open source Embark projects" e), [])
  | .ok names =>
    let projects := validateAll env names order
    let problemProjects := projects.filter (fun p => p.hasErrors)
    if problemProjects.isEmpty then (.ok (), [])
    else
      match slackWebhookUrl with
      | some url =>
        let blocks := slackNotificationBlocks problemProjects
        match env.sendWebhook url blocks with
        | .ok _ =>
          (.error (Report.msg "Not all projects conform to our guidelines"), [(url, blocks)])
        | .error e => (.error e, [(url, blocks)])
      | none => (.error (Report.msg "Not all projects conform to our guidelines"), [])

/-- `all`: the `eyre::Result<()>` of the full run. -/
def validateAllCmd (env : Env) (slackWebhookUrl : Option String) (order : List Nat) :
    Except Report Unit :=
  (allRun env slackWebhookUrl order).fst

/-- `one`: validate a single named project. -/
def validateOneCmd (env : Env) (projectName : String) : Except Report Unit :=
  let project := (Project.new projectName).validate env
  if project.hasErrors then
    .error (Report.msg "The project does not conform to our guidelines")
  else .ok ()

/-- A concrete environment for witnesses: every branch of every repository
holds the document `* alice bob`, and `data.json` lists two projects. -/
def envAllOk : Env where
  downloadRepoFile := fun _ _ _ _ => .ok "* alice bob"
  downloadDataJson := .ok ["cargo-deny", "physx"]
  sendWebhook := fun _ _ => .ok ()

/-- A concrete environment for witnesses: the `main` branch fetch fails but
`master` succeeds with `* alice`. -/
def envMainFails : Env where
  downloadRepoFile := fun _ _ branch _ =>
    if branch = "main" then .error (Report.msg "main branch missing")
    else .ok "* alice"
  downloadDataJson := .ok ["cargo-deny"]
  sendWebhook := fun _ _ => .ok ()

/-- A concrete environment for witnesses: both branch fetches fail, with
distinct errors. -/
def envBothFail : Env where
  downloadRepoFile := fun _ _ branch _ =>
    if branch = "main" then .error (Report.msg "main branch missing")
    else .error (Report.msg "master branch missing")
  downloadDataJson := .ok ["cargo-deny"]
  sendWebhook := fun _ _ => .ok ()

/-! ## Helper lemmas -/

theorem errorsToString_isSome_iff (p : Project) (b : Bool) :
    (p.errorsToString b).isSome = p.hasErrors := by
  unfold Project.errorsToString Project.errors Project.hasErrors
  cases p.maintainers <;> simp

theorem printStatus_isSome (p : Project) : (printStatus p).isSome := by
  unfold printStatus
  cases hes : p.errorsToString true with
  | some s => simp
  | none =>
    have h : (p.errorsToString true).isSome = p.hasErrors := errorsToString_isSome_iff p true
    rw [hes] at h
    cases hm : p.maintainers with
    | ok m => simp
    | error e =>
      exfalso
      simp [Project.hasErrors, hm] at h

/-! ## Claims -/

/-- C10: `Project::validate` changes only the maintainers outcome field:
the project's name after validation equals the name before validation. -/
theorem c10_validate_preserves_name (p : Project) (env : Env) :
    (p.validate env).name = p.name := rfl

/-- C9: a freshly created `Project` holds the not-yet-checked failure state:
`has_errors()` is true and `errors()` is non-empty on a fresh project, and
the outcome is replaced by the resolution result only by `validate`. -/
theorem c9_fresh_project_unchecked (name : String) (env : Env) :
    (Project.new name).hasErrors = true ∧
    (Project.new name).errors ≠ [] ∧
    (Project.new name).maintainers = notYetChecked ∧
    ((Project.new name).validate env).maintainers = lookupProjectMaintainers env name := by
  refine ⟨rfl, ?_, rfl, rfl⟩
  simp [Project.new, Project.errors, notYetChecked]

/-- C3: resolution tries `main` first, then `master`: the first branch whose
fetch succeeds short-circuits and its document is processed; if both fail,
the returned error is exactly the `master` (last-tried) failure. -/
theorem c3_branch_fallback (env : Env) (name : String) :
    (∀ text, getBranch env name "main" = .ok text →
      lookupProjectMaintainers env name = processCodeowners text) ∧
    (∀ e text, getBranch env name "main" = .error e →
      getBranch env name "master" = .ok text →
      lookupProjectMaintainers env name = processCodeowners text) ∧
    (∀ e e2, getBranch env name "main" = .error e →
      getBranch env name "master" = .error e2 →
      lookupProjectMaintainers env name = .error e2) := by
  refine ⟨?_, ?_, ?_⟩
  · intro text h
    unfold lookupProjectMaintainers fetchCodeowners
    rw [h]
  · intro e text h1 h2
    unfold lookupProjectMaintainers fetchCodeowners
    rw [h1, h2]
  · intro e e2 h1 h2
    unfold lookupProjectMaintainers fetchCodeowners
    rw [h1, h2]

/-- Witness for C3 at concrete environments: `main` failing with `master`
succeeding resolves to the `master` document, both failing yields the
`master` error, and `main` succeeding resolves to the `main` document. -/
theorem c3_branch_fallback_witness :
    lookupProjectMaintainers envMainFails "proj" = processCodeowners "* alice" ∧
    lookupProjectMaintainers envBothFail "proj" = .error (Report.msg "master branch missing") ∧
    lookupProjectMaintainers envAllOk "proj" = processCodeowners "* alice bob" :=
  ⟨(c3_branch_fallback envMainFails "proj").2.1 (Report.msg "main branch missing") "* alice"
      (by decide) (by decide),
    (c3_branch_fallback envBothFail "proj").2.2 (Report.msg "main branch missing")
      (Report.msg "master branch missing") (by decide) (by decide),
    (c3_branch_fallback envAllOk "proj").1 "* alice bob" (by decide)⟩

/-- C8: exactly one of the two printing branches of `print_status` applies:
`errors_to_string` returns `Some` exactly when the maintainers outcome is
`Err`, and `print_status` always produces output, so its `unreachable!()`
branch can never be reached. -/
theorem c8_print_status_total (p : Project) :
    ((p.errorsToString true).isSome ↔ ∃ e, p.maintainers = .error e) ∧
    (printStatus p).isSome := by
  refine ⟨?_, printStatus_isSome p⟩
  rw [errorsToString_isSome_iff p true]
  unfold Project.hasErrors
  cases hm : p.maintainers with
  | ok m => simp
  | error e => simp

theorem find?_map_pair (f : Nat → Project) (i : Nat) :
    ∀ (l : List Nat), i ∈ l →
      (l.map (fun j => (j, f j))).find? (fun c => c.fst == i) = some (i, f i) := by
  intro l
  induction l with
  | nil => intro h; simp at h
  | cons j rest ih =>
    intro h
    rw [List.map_cons]
    by_cases hj : j = i
    · subst hj
      rw [List.find?_cons_of_pos _ (by simp)]
    · rw [List.find?_cons_of_neg _ (by simp [hj])]
      exact ih (by
        rcases List.mem_cons.mp h with h1 | h2
        · exact absurd h1.symm hj
        · exact h2)

theorem collectByIndex_complete (f : Nat → Project) (n : Nat) (order : List Nat)
    (h : ∀ i, i < n → i ∈ order) :
    collectByIndex n (order.map (fun j => (j, f j))) =
      (List.range n).map (fun i => some (f i)) := by
  unfold collectByIndex
  apply List.map_congr_left
  intro i hi
  rw [find?_map_pair f i order (h i (List.mem_range.mp hi))]
  rfl

theorem reduceOption_map_some' {α : Type} (l : List α) :
    (l.map (fun a => some a)).reduceOption = l := by
  induction l with
  | nil => rfl
  | cons a t ih => simp [ih]

theorem map_getD_range {α β : Type} (g : α → β) (d : α) :
    ∀ (l : List α), (List.range l.length).map (fun i => g (l.getD i d)) = l.map g := by
  intro l
  induction l with
  | nil => rfl
  | cons a t ih =>
    rw [List.length_cons, List.range_succ_eq_map, List.map_cons, List.map_map, List.map_cons]
    refine congrArg (g a :: ·) ?_
    rw [← ih]
    apply List.map_congr_left
    intro i _
    simp [Function.comp, Nat.succ_eq_add_one, List.getD_cons_succ]

theorem map_getD_lt {α β : Type} (g : α → β) (d : β) (e : α) :
    ∀ (l : List α) (i : Nat), i < l.length → (l.map g).getD i d = g (l.getD i e) := by
  intro l
  induction l with
  | nil => intro i hi; simp at hi
  | cons a t ih =>
    intro i hi
    cases i with
    | zero => rfl
    | succ i =>
      rw [List.map_cons, List.getD_cons_succ, List.getD_cons_succ]
      exact ih i (by simpa using hi)

theorem validateAll_eq_seq (env : Env) (names : List String) (order : List Nat)
    (h : order.Perm (List.range names.length)) :
    validateAll env names order = validateAllSeq env names := by
  have hmem : ∀ i, i < names.length → i ∈ order := fun i hi =>
    (h.mem_iff).mpr (List.mem_range.mpr hi)
  unfold validateAll
  rw [collectByIndex_complete (taskResult env names) names.length order hmem]
  have : (List.range names.length).map (fun i => some (taskResult env names i)) =
      ((List.range names.length).map (taskResult env names)).map (fun a => some a) :=
    (List.map_map (fun a => some a) (taskResult env names) (List.range names.length)).symm
  rw [this, reduceOption_map_some']
  unfold taskResult
  exact map_getD_range (fun n => (Project.new n).validate env) "" names

/-- C1: `join_all` over one validation future per project yields exactly one
outcome per input project, in input order regardless of the completion
order: for every completion order (permutation of the task indices) the
output length equals the input length and the i-th result carries the i-th
input identifier. -/
theorem c1_validate_all_input_order (env : Env) (names : List String) (order : List Nat)
    (h : order.Perm (List.range names.length)) :
    (validateAll env names order).length = names.length ∧
    ∀ i, i < names.length →
      ((validateAll env names order).getD i (Project.new "")).name = names.getD i "" := by
  rw [validateAll_eq_seq env names order h]
  constructor
  · simp [validateAllSeq]
  · intro i hi
    unfold validateAllSeq
    rw [map_getD_lt (fun n => (Project.new n).validate env) (Project.new "") "" names i hi]
    rfl

/-- Witness for C1: with two projects and the tasks completing in reverse
order, the output still lists the projects in input order. -/
theorem c1_validate_all_input_order_witness :
    ([1, 0] : List Nat).Perm (List.range 2) ∧
    (validateAll envAllOk ["cargo-deny", "physx"] [1, 0]).length = 2 ∧
    ∀ i, i < 2 →
      ((validateAll envAllOk ["cargo-deny", "physx"] [1, 0]).getD i (Project.new "")).name =
        ["cargo-deny", "physx"].getD i "" :=
  ⟨by decide,
    (c1_validate_all_input_order envAllOk ["cargo-deny", "physx"] [1, 0] (by decide)).1,
    (c1_validate_all_input_order envAllOk ["cargo-deny", "physx"] [1, 0] (by decide)).2⟩

/-- C6: `validate` captures any resolution failure inside the project's
outcome field rather than propagating it: for every completion order the
run produces one validated project per input (its outcome holding exactly
the resolution result, error or not), and every project yields a status
line. -/
theorem c6_failures_captured (env : Env) (names : List String) (order : List Nat)
    (h : order.Perm (List.range names.length)) :
    (validateAll env names order).length = names.length ∧
    (∀ i, i < names.length →
      (validateAll env names order).getD i (Project.new "") =
        { name := names.getD i "",
          maintainers := lookupProjectMaintainers env (names.getD i "") }) ∧
    ∀ p ∈ validateAll env names order, (printStatus p).isSome := by
  rw [validateAll_eq_seq env names order h]
  refine ⟨by simp [validateAllSeq], ?_, ?_⟩
  · intro i hi
    unfold validateAllSeq
    rw [map_getD_lt (fun n => (Project.new n).validate env) (Project.new "") "" names i hi]
    rfl
  · intro p _
    exact printStatus_isSome p

/-- Witness for C6: in an environment where every fetch fails, a run over
one project still yields one project, its outcome holding the captured
fetch failure, and a status line for it. -/
theorem c6_failures_captured_witness :
    (validateAll envBothFail ["cargo-deny"] [0]).length = 1 ∧
    (validateAll envBothFail ["cargo-deny"] [0]).getD 0 (Project.new "") =
      { name := "cargo-deny",
        maintainers := lookupProjectMaintainers envBothFail "cargo-deny" } ∧
    ∀ p ∈ validateAll envBothFail ["cargo-deny"] [0], (printStatus p).isSome :=
  ⟨(c6_failures_captured envBothFail ["cargo-deny"] [0] (by decide)).1,
    (c6_failures_captured envBothFail ["cargo-deny"] [0] (by decide)).2.1 0 (by decide),
    (c6_failures_captured envBothFail ["cargo-deny"] [0] (by decide)).2.2⟩

theorem parseLine_ok_owners {line : List Char} {r : CodeOwnersRule}
    (h : parseLine line = some (.ok r)) : r.owners ≠ [] := by
  unfold parseLine at h
  split at h
  · exact absurd h (by simp)
  · split at h
    · exact absurd h (by simp)
    · split at h
      · exact absurd h (by simp)
      · exact absurd h (by simp)
      · rw [Option.some.injEq, Except.ok.injEq] at h
        subst h
        simp [List.dedup_eq_nil]

theorem collectRules_ok_mem :
    ∀ (l : List (Except Report CodeOwnersRule)) (rs : List CodeOwnersRule),
      collectRules l = .ok rs → ∀ r ∈ rs, (Except.ok r) ∈ l := by
  intro l
  induction l with
  | nil =>
    intro rs h r hr
    unfold collectRules at h
    rw [Except.ok.injEq] at h
    subst h
    simp at hr
  | cons x rest ih =>
    intro rs h r hr
    cases x with
    | error e => exact absurd h (by simp [collectRules])
    | ok r0 =>
      unfold collectRules at h
      cases hcr : collectRules rest with
      | error e => rw [hcr] at h; exact absurd h (by simp [Except.map])
      | ok rs' =>
        rw [hcr] at h
        simp only [Except.map, Except.ok.injEq] at h
        subst h
        rcases List.mem_cons.mp hr with h1 | h2
        · subst h1; exact List.mem_cons_self _ _
        · exact List.mem_cons_of_mem _ (ih rs' hcr r h2)

theorem codeOwners_new_rule_owners {text : String} {co : CodeOwners}
    (h : CodeOwners.new text = .ok co) : ∀ r ∈ co.rules, r.owners ≠ [] := by
  intro r hr
  unfold CodeOwners.new at h
  cases hcr : collectRules ((splitLines text.data).filterMap parseLine) with
  | error e => rw [hcr] at h; exact absurd h (by simp [Except.map])
  | ok rs =>
    rw [hcr] at h
    simp only [Except.map, Except.ok.injEq] at h
    subst h
    have hmem : (Except.ok r : Except Report CodeOwnersRule) ∈
        (splitLines text.data).filterMap parseLine :=
      collectRules_ok_mem _ rs hcr r hr
    obtain ⟨line, _, hpl⟩ := List.mem_filterMap.mp hmem
    exact parseLine_ok_owners hpl

theorem primaryMaintainers_mem {co : CodeOwners} {m : List String}
    (h : co.primaryMaintainers = some m) : ∃ r ∈ co.rules, r.owners = m := by
  unfold CodeOwners.primaryMaintainers at h
  cases hl : (co.rules.filter (fun r => r.pattern = "*")).getLast? with
  | none => rw [hl] at h; simp at h
  | some r =>
    rw [hl] at h
    simp only [Option.map_some', Option.some.injEq] at h
    exact ⟨r, List.mem_of_mem_filter (List.mem_of_getLast?_eq_some hl), h⟩

theorem lookup_fetch_ok {env : Env} {name text : String}
    (hf : fetchCodeowners env name = .ok text) :
    lookupProjectMaintainers env name = processCodeowners text := by
  unfold lookupProjectMaintainers
  rw [hf]

theorem lookup_fetch_error {env : Env} {name : String} {e : Report}
    (hf : fetchCodeowners env name = .error e) :
    lookupProjectMaintainers env name = .error e := by
  unfold lookupProjectMaintainers
  rw [hf]

theorem processCodeowners_parse_error {text : String} {e : Report}
    (hn : CodeOwners.new text = .error e) :
    processCodeowners text = .error (Report.context "Unable to determine maintainers" e) := by
  unfold processCodeowners
  rw [hn]

theorem processCodeowners_no_wildcard {text : String} {co : CodeOwners}
    (hn : CodeOwners.new text = .ok co) (hp : co.primaryMaintainers = none) :
    processCodeowners text =
      .error (Report.msg "No maintainers were found for * the CODEOWNERS file") := by
  unfold processCodeowners
  rw [hn]
  dsimp only
  rw [hp]

theorem processCodeowners_found {text : String} {co : CodeOwners} {m : List String}
    (hn : CodeOwners.new text = .ok co) (hp : co.primaryMaintainers = some m) :
    processCodeowners text = .ok m := by
  unfold processCodeowners
  rw [hn]
  dsimp only
  rw [hp]

theorem lookup_ok_iff (env : Env) (name : String) (m : List String) :
    lookupProjectMaintainers env name = .ok m ↔
      ∃ text co, fetchCodeowners env name = .ok text ∧
        CodeOwners.new text = .ok co ∧ co.primaryMaintainers = some m := by
  constructor
  · intro h
    cases hf : fetchCodeowners env name with
    | error e => rw [lookup_fetch_error hf] at h; exact absurd h (by simp)
    | ok text =>
      rw [lookup_fetch_ok hf] at h
      cases hn : CodeOwners.new text with
      | error e => rw [processCodeowners_parse_error hn] at h; exact absurd h (by simp)
      | ok co =>
        cases hp : co.primaryMaintainers with
        | none => rw [processCodeowners_no_wildcard hn hp] at h; exact absurd h (by simp)
        | some m' =>
          rw [processCodeowners_found hn hp, Except.ok.injEq] at h
          subst h
          exact ⟨text, co, rfl, hn, hp⟩
  · rintro ⟨text, co, hf, hn, hp⟩
    rw [lookup_fetch_ok hf]
    exact processCodeowners_found hn hp

theorem lookup_ok_nonempty (env : Env) (name : String) (m : List String)
    (h : lookupProjectMaintainers env name = .ok m) : m ≠ [] := by
  obtain ⟨text, co, _, hn, hp⟩ := (lookup_ok_iff env name m).mp h
  obtain ⟨r, hr, hro⟩ := primaryMaintainers_mem hp
  exact hro ▸ codeOwners_new_rule_owners hn r hr

theorem lookup_error_cases (env : Env) (name : String) (e : Report)
    (h : lookupProjectMaintainers env name = .error e) :
    (∃ pe, e = Report.context "Unable to determine maintainers" pe) ∨
    e = Report.msg "No maintainers were found for * the CODEOWNERS file" ∨
    fetchCodeowners env name = .error e := by
  cases hf : fetchCodeowners env name with
  | error e2 =>
    rw [lookup_fetch_error hf, Except.error.injEq] at h
    subst h
    exact Or.inr (Or.inr rfl)
  | ok text =>
    rw [lookup_fetch_ok hf] at h
    cases hn : CodeOwners.new text with
    | error pe =>
      rw [processCodeowners_parse_error hn, Except.error.injEq] at h
      exact Or.inl ⟨pe, h.symm⟩
    | ok co =>
      cases hp : co.primaryMaintainers with
      | some m => rw [processCodeowners_found hn hp] at h; exact absurd h (by simp)
      | none =>
        rw [processCodeowners_no_wildcard hn hp, Except.error.injEq] at h
        exact Or.inr (Or.inl h.symm)

/-- C4: the per-project outcome is `Ok(maintainer_set)` exactly when the
fetch succeeds, the document parses, and it declares a primary maintainer
set — which is then necessarily non-empty; otherwise the outcome is a parse
error (context-wrapped), the no-maintainers error, or the fetch error left
by branch exhaustion. -/
theorem c4_outcome_characterization (env : Env) (name : String) :
    (∀ m, lookupProjectMaintainers env name = .ok m ↔
      ∃ text co, fetchCodeowners env name = .ok text ∧
        CodeOwners.new text = .ok co ∧ co.primaryMaintainers = some m) ∧
    (∀ m, lookupProjectMaintainers env name = .ok m → m ≠ []) ∧
    (∀ e, lookupProjectMaintainers env name = .error e →
      (∃ pe, e = Report.context "Unable to determine maintainers" pe) ∨
      e = Report.msg "No maintainers were found for * the CODEOWNERS file" ∨
      fetchCodeowners env name = .error e) :=
  ⟨fun m => lookup_ok_iff env name m,
    fun m => lookup_ok_nonempty env name m,
    fun e => lookup_error_cases env name e⟩

/-- Witness for C4: in the all-succeeding environment the outcome is the
(non-empty) maintainer set of the fetched document. -/
theorem c4_outcome_characterization_witness :
    lookupProjectMaintainers envAllOk "proj" = .ok ["alice", "bob"] ∧
    (["alice", "bob"] : List String) ≠ [] :=
  ⟨by decide,
    (c4_outcome_characterization envAllOk "proj").2.1 ["alice", "bob"] (by decide)⟩

theorem slackProjectBlock_isSome (p : Project) :
    (slackProjectBlock p).isSome = p.hasErrors := by
  unfold slackProjectBlock
  rw [← errorsToString_isSome_iff p false]
  cases p.errorsToString false <;> simp

theorem slackProjectBlock_of_hasErrors {p : Project} (h : p.hasErrors = true) :
    slackProjectBlock p = some (failingBlock p) := by
  have hs := errorsToString_isSome_iff p false
  rw [h] at hs
  obtain ⟨s, hes⟩ := Option.isSome_iff_exists.mp hs
  unfold slackProjectBlock failingBlock
  rw [hes]
  rfl

theorem slackProjectBlock_of_ok {p : Project} (h : p.hasErrors = false) :
    slackProjectBlock p = none := by
  have hs := errorsToString_isSome_iff p false
  rw [h] at hs
  have hn : p.errorsToString false = none := Option.not_isSome_iff_eq_none.mp (by simp [hs])
  unfold slackProjectBlock
  rw [hn]
  rfl

theorem filterMap_slackProjectBlock (ps : List Project) :
    ps.filterMap slackProjectBlock =
      (ps.filter (fun p => p.hasErrors)).map failingBlock := by
  induction ps with
  | nil => rfl
  | cons p t ih =>
    cases hp : p.hasErrors with
    | true =>
      simp [List.filterMap_cons, List.filter_cons, slackProjectBlock_of_hasErrors hp, hp, ih]
    | false =>
      simp [List.filterMap_cons, List.filter_cons, slackProjectBlock_of_ok hp, hp, ih]

/-- C7: the notification payload is, in order, a fixed header block, a
divider, exactly one block per failing project (carrying that project's
display name and failure cause text), a divider, and a fixed footer block;
projects without errors contribute no block. -/
theorem c7_notification_payload_shape (projects : List Project) :
    slackNotificationBlocks projects =
      [Block.Text slackHead, Block.Divider] ++
        (projects.filter (fun p => p.hasErrors)).map failingBlock ++
        [Block.Divider, Block.Text slackFoot] ∧
    ∀ p, (slackProjectBlock p).isSome = p.hasErrors := by
  refine ⟨?_, slackProjectBlock_isSome⟩
  unfold slackNotificationBlocks
  rw [filterMap_slackProjectBlock]

theorem problems_empty_iff (l : List Project) :
    (l.filter (fun p => p.hasErrors)).isEmpty = true ↔ ∀ p ∈ l, p.hasErrors = false := by
  rw [List.isEmpty_iff, List.filter_eq_nil_iff]
  simp [Bool.not_eq_true]

/-- C2: a run passes iff every project's outcome is Ok (vacuously for an
empty list), and both commands succeed exactly on passing runs: `all`
returns `Ok(())` iff no validated project has errors (given the project
list downloads), and `one` returns `Ok(())` iff the single project has no
errors; the run-level error value encodes no distinction between failure
kinds (it is one fixed message). -/
theorem c2_passing_iff_success (env : Env) (url : Option String) (order : List Nat)
    (names : List String) (hdl : env.downloadDataJson = .ok names)
    (hperm : order.Perm (List.range names.length)) :
    ((validateAllCmd env url order).isOk = true ↔
      ∀ p ∈ validateAllSeq env names, p.hasErrors = false) ∧
    (names = [] → validateAllCmd env url order = .ok ()) ∧
    (∀ name, (validateOneCmd env name).isOk = true ↔
      ((Project.new name).validate env).hasErrors = false) ∧
    (url = none → (¬ ∀ p ∈ validateAllSeq env names, p.hasErrors = false) →
      validateAllCmd env url order =
        .error (Report.msg "Not all projects conform to our guidelines")) ∧
    (∀ name, ((Project.new name).validate env).hasErrors = true →
      validateOneCmd env name =
        .error (Report.msg "The project does not conform to our guidelines")) := by
  have hall := validateAll_eq_seq env names order hperm
  refine ⟨?_, ?_, ?_, ?_, ?_⟩
  · unfold validateAllCmd allRun
    rw [hdl]
    dsimp only
    rw [hall]
    by_cases hpass : ((validateAllSeq env names).filter (fun p => p.hasErrors)).isEmpty = true
    · rw [if_pos hpass]
      exact ⟨fun _ => (problems_empty_iff _).mp hpass, fun _ => rfl⟩
    · rw [if_neg hpass]
      have hnp : ¬ ∀ p ∈ validateAllSeq env names, p.hasErrors = false := fun hp =>
        hpass ((problems_empty_iff _).mpr hp)
      cases url with
      | none => simp [Except.isOk, Except.toBool, hnp]
      | some u =>
        cases hw : env.sendWebhook u
            (slackNotificationBlocks
              ((validateAllSeq env names).filter (fun p => p.hasErrors))) with
        | ok _ => simp [hw, Except.isOk, Except.toBool, hnp]
        | error e => simp [hw, Except.isOk, Except.toBool, hnp]
  · intro hnil
    subst hnil
    unfold validateAllCmd allRun
    rw [hdl]
    dsimp only
    rw [hall]
    simp [validateAllSeq]
  · intro name
    unfold validateOneCmd
    by_cases h1 : ((Project.new name).validate env).hasErrors = true
    · simp [h1, Except.isOk, Except.toBool]
    · rw [Bool.not_eq_true] at h1
      simp [h1, Except.isOk, Except.toBool]
  · intro hu hnp
    subst hu
    unfold validateAllCmd allRun
    rw [hdl]
    dsimp only
    rw [hall]
    rw [if_neg (fun hp => hnp ((problems_empty_iff _).mp hp))]
  · intro name h1
    unfold validateOneCmd
    simp [h1]

/-- Witness for C2: in the all-succeeding environment with no webhook
configured, `all` succeeds iff every project passes (which holds), and
`one` succeeds on a passing project. -/
theorem c2_passing_iff_success_witness :
    envAllOk.downloadDataJson = .ok ["cargo-deny", "physx"] ∧
    ((validateAllCmd envAllOk none [0, 1]).isOk = true ↔
      ∀ p ∈ validateAllSeq envAllOk ["cargo-deny", "physx"], p.hasErrors = false) ∧
    ((validateOneCmd envAllOk "physx").isOk = true ↔
      ((Project.new "physx").validate envAllOk).hasErrors = false) :=
  ⟨rfl,
    (c2_passing_iff_success envAllOk none [0, 1] ["cargo-deny", "physx"] rfl (by decide)).1,
    (c2_passing_iff_success envAllOk none [0, 1] ["cargo-deny", "physx"] rfl
      (by decide)).2.2.1 "physx"⟩

/-- C5: the notification sink is invoked iff at least one project fails AND
a webhook endpoint is configured, and at most once per run; in particular
never for an all-passing run even when an endpoint is configured. -/
theorem c5_notification_iff (env : Env) (url : Option String) (order : List Nat)
    (names : List String) (hdl : env.downloadDataJson = .ok names)
    (hperm : order.Perm (List.range names.length)) :
    (allRun env url order).snd.length ≤ 1 ∧
    ((allRun env url order).snd ≠ [] ↔
      ((∃ p ∈ validateAllSeq env names, p.hasErrors = true) ∧ url ≠ none)) := by
  have hall := validateAll_eq_seq env names order hperm
  unfold allRun
  rw [hdl]
  dsimp only
  rw [hall]
  by_cases hpass : ((validateAllSeq env names).filter (fun p => p.hasErrors)).isEmpty = true
  · rw [if_pos hpass]
    refine ⟨by simp, ?_, ?_⟩
    · intro h; exact absurd rfl h
    · rintro ⟨⟨p, hp, hpe⟩, _⟩
      have hfalse := (problems_empty_iff _).mp hpass p hp
      rw [hpe] at hfalse
      simp at hfalse
  · rw [if_neg hpass]
    have hne : (validateAllSeq env names).filter (fun p => p.hasErrors) ≠ [] := fun hn =>
      hpass (by rw [hn]; rfl)
    have hex : ∃ p ∈ validateAllSeq env names, p.hasErrors = true := by
      obtain ⟨p, hp⟩ := List.exists_mem_of_ne_nil _ hne
      exact ⟨p, (List.mem_filter.mp hp).1, (List.mem_filter.mp hp).2⟩
    cases url with
    | none =>
      refine ⟨by simp, ?_, ?_⟩
      · intro h; exact absurd rfl h
      · rintro ⟨_, hu⟩; exact absurd rfl hu
    | some u =>
      cases hw : env.sendWebhook u
          (slackNotificationBlocks
            ((validateAllSeq env names).filter (fun p => p.hasErrors))) with
      | ok _ =>
        refine ⟨by simp [hw], ?_, fun _ => by simp [hw]⟩
        intro _
        exact ⟨hex, by simp⟩
      | error e =>
        refine ⟨by simp [hw], ?_, fun _ => by simp [hw]⟩
        intro _
        exact ⟨hex, by simp⟩

/-- Witness for C5: with one failing project and a configured webhook the
sink is invoked (the trace is non-empty), and never more than once. -/
theorem c5_notification_iff_witness :
    envBothFail.downloadDataJson = .ok ["cargo-deny"] ∧
    (allRun envBothFail (some "https://hooks.example") [0]).snd.length ≤ 1 ∧
    ((allRun envBothFail (some "https://hooks.example") [0]).snd ≠ [] ↔
      ((∃ p ∈ validateAllSeq envBothFail ["cargo-deny"], p.hasErrors = true) ∧
        (some "https://hooks.example" : Option String) ≠ none)) :=
  ⟨rfl,
    (c5_notification_iff envBothFail (some "https://hooks.example") [0] ["cargo-deny"] rfl
      (by decide)).1,
    (c5_notification_iff envBothFail (some "https://hooks.example") [0] ["cargo-deny"] rfl
      (by decide)).2⟩
